import Mathlib

/-!
Shallow embedding of the core of `fddup`, a progressive duplicate-file
detector, together with proofs about it.

The embedding covers:
* `src/algo.rs` — the batching algorithm `find_work`, which pops items from
  the high end of a pool sorted ascending by grouping key and partitions the
  consumed portion into `work` / `duplicates` / `uniques` under a budget;
* `src/possdupe.rs` — the candidate model `PossDupe` with its grouping `Key`,
  `bytes_remaining` and `update_digest`;
* `src/fddup.rs` — the per-candidate read step `read_poss_dupe`;
* `src/stats.rs` — the `Stats` bookkeeping record.

Rust `u64`/`usize` values are modelled as `Nat` (the source only subtracts
via `saturating_sub`, which is `Nat` subtraction, and only adds; no wrapping
arithmetic occurs on the modelled paths).  Rust `Vec<T>` is modelled as
`List T` in the same index order (index 0 first); `Vec::pop` takes the last
element, i.e. the head of the reversed list.
-/

namespace Fddup

/-- Rust `a.saturating_sub(b)` on unsigned integers.  On `Nat` both branches
agree with truncated subtraction; the `if` mirrors the saturation. -/
def saturating_sub (a b : Nat) : Nat :=
  if a ≤ b then 0 else a - b

/-! ## algo.rs -/

/-- The `Work` struct of `src/algo.rs`: result of one batching pass.
Each list preserves the order items were popped from the pool. -/
structure Work (T : Type) where
  work : List T
  duplicates : List T
  uniques : List T
deriving DecidableEq, Repr

variable {T K : Type}

/-- The `last_key_matches` local of `find_work`: does `x` continue the run of
the most recently classified grouping key? -/
def last_key_matches [DecidableEq K] (fKey : T → K) (lastKey : Option K) (x : T) : Bool :=
  match lastKey with
  | some k => decide (k = fKey x)
  | none => false

/-- The lookahead half of the `either_matches` local of `find_work`: does the
next item still in the pool (the new last element after the pop) share `x`'s
grouping key? -/
def next_matches [DecidableEq K] (fKey : T → K) (rest : List T) (x : T) : Bool :=
  match rest with
  | next :: _ => decide (fKey next = fKey x)
  | [] => false

/-- The loop of `find_work` in `src/algo.rs`, acting on the pool in *stack*
order (head = top of the stack = highest-key element = the element `Vec::pop`
returns).  Returns `(work, duplicates, uniques, leftover-stack)`.
`fKey` and `fRem` are the two methods of the `GetKey` trait. -/
def findWorkAux [DecidableEq K] (fKey : T → K) (fRem : T → Nat) :
    Option K → Nat → List T → List T × List T × List T × List T
  | _, _, [] => ([], [], [], [])
  | lastKey, remaining, x :: rest =>
    if remaining = 0 ∧ last_key_matches fKey lastKey x = false then
      -- `possible.push(item); break;`
      ([], [], [], x :: rest)
    else if last_key_matches fKey lastKey x || next_matches fKey rest x then
      if fRem x = 0 then
        match findWorkAux fKey fRem (some (fKey x)) remaining rest with
        | (w, d, u, lo) => (w, x :: d, u, lo)
      else
        match findWorkAux fKey fRem (some (fKey x)) (saturating_sub remaining 1) rest with
        | (w, d, u, lo) => (x :: w, d, u, lo)
    else
      match findWorkAux fKey fRem lastKey remaining rest with
      | (w, d, u, lo) => (w, d, x :: u, lo)

/-- `find_work` of `src/algo.rs`.  `possible` is in `Vec` order (index 0
first); popping from the `Vec`'s high end is taking the head of the reversed
list.  Returns the `Work` batch together with the shrunk pool, again in `Vec`
order. -/
def find_work [DecidableEq K] (fKey : T → K) (fRem : T → Nat)
    (possible : List T) (desired : Nat) : Work T × List T :=
  match findWorkAux fKey fRem none desired possible.reverse with
  | (w, d, u, lo) => (⟨w, d, u⟩, lo.reverse)

/-- The `TestWork` item type of the test module of `src/algo.rs`: grouping
key `id`, and a fixed `bytes_remaining` value. -/
structure TestWork where
  id : Nat
  bytes_remaining : Nat
deriving DecidableEq, Repr

/-- `find_work` instantiated at `TestWork`, as the tests of `src/algo.rs`
exercise it. -/
def find_work_tw (possible : List TestWork) (desired : Nat) :
    Work TestWork × List TestWork :=
  find_work TestWork.id TestWork.bytes_remaining possible desired

/-- `w_10` of the test module: an item with 10 bytes remaining. -/
def w_10 (id : Nat) : TestWork := ⟨id, 10⟩

/-- `w_0` of the test module: an item with 0 bytes remaining (fully read). -/
def w_0 (id : Nat) : TestWork := ⟨id, 0⟩

-- The Rust unit tests of `src/algo.rs`, replayed on the embedding.
example : find_work_tw [w_10 1, w_10 2, w_10 3, w_10 4] 4 =
    (⟨[], [], [w_10 4, w_10 3, w_10 2, w_10 1]⟩, []) := by decide

example : find_work_tw [w_10 1, w_10 1, w_10 1, w_10 1] 4 =
    (⟨[w_10 1, w_10 1, w_10 1, w_10 1], [], []⟩, []) := by decide

example : find_work_tw [w_10 1, w_10 1, w_10 1, w_10 1] 2 =
    (⟨[w_10 1, w_10 1, w_10 1, w_10 1], [], []⟩, []) := by decide

example : find_work_tw [w_10 1, w_10 2, w_10 3, w_10 3, w_10 3, w_10 4, w_10 5] 2 =
    (⟨[w_10 3, w_10 3, w_10 3], [], [w_10 5, w_10 4]⟩, [w_10 1, w_10 2]) := by decide

example : find_work_tw [w_10 1, w_10 2, w_10 3, w_10 3, w_10 3, w_10 4, w_10 5] 4 =
    (⟨[w_10 3, w_10 3, w_10 3], [], [w_10 5, w_10 4, w_10 2, w_10 1]⟩, []) := by decide

example : find_work_tw [w_10 1, w_10 2, w_10 3, w_10 3, w_0 4, w_0 4, w_10 5] 4 =
    (⟨[w_10 3, w_10 3], [w_0 4, w_0 4], [w_10 5, w_10 2, w_10 1]⟩, []) := by decide

example : find_work_tw [w_0 1, w_0 1] 4 =
    (⟨[], [w_0 1, w_0 1], []⟩, []) := by decide

example : find_work_tw [w_0 1, w_0 2] 4 =
    (⟨[], [], [w_0 2, w_0 1]⟩, []) := by decide

example : find_work_tw [w_10 1, w_10 1, w_0 2, w_0 3, w_10 4, w_10 4, w_10 5] 2 =
    (⟨[w_10 4, w_10 4], [], [w_10 5]⟩, [w_10 1, w_10 1, w_0 2, w_0 3]) := by decide

example : find_work_tw [w_10 1, w_10 1, w_10 2, w_10 2] 3 =
    (⟨[w_10 2, w_10 2, w_10 1, w_10 1], [], []⟩, []) := by decide

example : find_work_tw [w_10 1, w_10 1, w_10 2, w_10 3, w_10 3] 5 =
    (⟨[w_10 3, w_10 3, w_10 1, w_10 1], [], [w_10 2]⟩, []) := by decide

/-! ## possdupe.rs

Bytes are modelled as `Nat`; the SHA-256 accumulator of the external `sha2`
crate (not part of this repository's sources) is modelled from the spec. -/

/-- Modelled from the spec: the external `sha2` crate's `Sha256` rolling hash
accumulator.  The spec requires only that it accumulates every byte fed so far
and supports a non-destructive finalize of an intermediate digest, so the
state is exactly the list of bytes fed; the fingerprint function itself is
kept abstract (a parameter `fp` below, standing for the 32-byte SHA-256
digest of a byte sequence). -/
structure Sha256 where
  fed : List Nat
deriving DecidableEq, Repr

/-- `Sha256::new()`: fresh accumulator, nothing fed. -/
def Sha256.new : Sha256 := ⟨[]⟩

/-- `Digest::update`: feed a buffer into the accumulator. -/
def Sha256.update (d : Sha256) (buffer : List Nat) : Sha256 :=
  ⟨d.fed ++ buffer⟩

/-- `digest.clone().finalize()`: the fingerprint of everything fed so far,
computed on a clone so the accumulator (`d` itself) stays usable.  `fp` is
the abstract SHA-256 fingerprint function. -/
def Sha256.finalize_clone (fp : List Nat → List Nat) (d : Sha256) : List Nat :=
  fp d.fed

/-- The `Key` struct of `src/possdupe.rs`: grouping key for sorting possible
duplicates, file length plus digest-so-far.  The `[u8; 32]` snapshot is a
byte list (kept at length 32 by the code paths that write it). -/
structure Key where
  len : Nat
  digest_snapshot : List Nat
deriving DecidableEq, Repr

/-- `Key::new(len)`: snapshot starts out as all 0s. -/
def Key.new (len : Nat) : Key :=
  ⟨len, List.replicate 32 0⟩

/-- The `PossDupe` struct of `src/possdupe.rs`.  The lazily opened
`Option<File>` handle is I/O-only and carries no data the modelled operations
read, so it is omitted; the bytes a read obtains are passed in explicitly in
`read_poss_dupe` below. -/
structure PossDupe where
  path : String
  key : Key
  file_len : Nat
  bytes_read : Nat
  digest : Sha256
deriving DecidableEq, Repr

/-- `PossDupe::new(path, file_len)`. -/
def PossDupe.new (path : String) (file_len : Nat) : PossDupe :=
  { path := path
    key := Key.new file_len
    file_len := file_len
    bytes_read := 0
    digest := Sha256.new }

/-- `PossDupe::bytes_remaining`: `self.key.len.saturating_sub(self.bytes_read)`. -/
def PossDupe.bytes_remaining (pd : PossDupe) : Nat :=
  saturating_sub pd.key.len pd.bytes_read

/-- `PossDupe::update_digest(buffer)`: feed `buffer` into the accumulator and
overwrite `key.digest_snapshot` with the non-destructive finalize of the
updated accumulator.  `fp` is the abstract SHA-256 fingerprint function. -/
def PossDupe.update_digest (fp : List Nat → List Nat) (pd : PossDupe)
    (buffer : List Nat) : PossDupe :=
  let d := pd.digest.update buffer
  { pd with
    digest := d
    key := { pd.key with digest_snapshot := d.finalize_clone fp } }

/-- A sequence of `update_digest` calls, in order. -/
def apply_updates (fp : List Nat → List Nat) (pd : PossDupe)
    (chunks : List (List Nat)) : PossDupe :=
  chunks.foldl (fun acc c => acc.update_digest fp c) pd

/-! ## fddup.rs: the read executor -/

/-- `read_poss_dupe` of `src/fddup.rs`, with the I/O made explicit:
`content` is the file's byte content.  It computes
`to_read = min(read_size, bytes_remaining)`, reads that many bytes starting
at offset `bytes_read` (the code asserts the read is never short, i.e. the
file really holds that many bytes), advances `bytes_read` by the amount read,
and updates the digest with the bytes read. -/
def read_poss_dupe (fp : List Nat → List Nat) (content : List Nat)
    (pd : PossDupe) (read_size : Nat) : PossDupe :=
  let to_read := min read_size pd.bytes_remaining
  let buffer := (content.drop pd.bytes_read).take to_read
  let pd' := { pd with bytes_read := pd.bytes_read + to_read }
  pd'.update_digest fp buffer

/-! ## stats.rs -/

/-- The `Stats` struct of `src/stats.rs`.  The source field
`num_files_partially_read` is rendered `num_files_partly_read` here. -/
structure Stats where
  total_bytes_considered : Nat
  total_bytes_read : Nat
  total_bytes_skipped : Nat
  num_duplicate_files : Nat
  num_unique_files : Nat
  num_files_partly_read : Nat
  num_files_fully_read : Nat
  num_files_not_read : Nat
deriving DecidableEq, Repr

/-- `Stats::new()`: all counters zero. -/
def Stats.new : Stats := ⟨0, 0, 0, 0, 0, 0, 0, 0⟩

/-- `Stats::track(pd)`: accumulate byte totals, then bump exactly one of the
fully/partly/not-read file counters. -/
def Stats.track (s : Stats) (pd : PossDupe) : Stats :=
  let s := { s with
    total_bytes_considered := s.total_bytes_considered + pd.file_len
    total_bytes_read := s.total_bytes_read + pd.bytes_read
    total_bytes_skipped := s.total_bytes_skipped + pd.bytes_remaining }
  if pd.bytes_read > 0 then
    if pd.bytes_remaining = 0 then
      { s with num_files_fully_read := s.num_files_fully_read + 1 }
    else
      { s with num_files_partly_read := s.num_files_partly_read + 1 }
  else
    { s with num_files_not_read := s.num_files_not_read + 1 }

/-- `Stats::unique(pd)`. -/
def Stats.unique (s : Stats) (pd : PossDupe) : Stats :=
  Stats.track { s with num_unique_files := s.num_unique_files + 1 } pd

/-- `Stats::duplicate(pd)`. -/
def Stats.duplicate (s : Stats) (pd : PossDupe) : Stats :=
  Stats.track { s with num_duplicate_files := s.num_duplicate_files + 1 } pd

/-- A run of the statistics bookkeeping: apply a sequence of events, each a
`unique` (`true`) or `duplicate` (`false`) call on a candidate. -/
def apply_events (s : Stats) (evs : List (Bool × PossDupe)) : Stats :=
  evs.foldl (fun s e => if e.1 then s.unique e.2 else s.duplicate e.2) s

/-! ## Helper lemmas about the batching loop -/

theorem saturating_sub_eq (a b : Nat) : saturating_sub a b = a - b := by
  unfold saturating_sub
  split <;> omega

theorem last_key_matches_iff [DecidableEq K] (fKey : T → K)
    (lastKey : Option K) (x : T) :
    last_key_matches fKey lastKey x = true ↔ lastKey = some (fKey x) := by
  cases lastKey <;> simp [last_key_matches]

theorem last_key_matches_none [DecidableEq K] (fKey : T → K) (x : T) :
    last_key_matches fKey (none : Option K) x = false := rfl

/-- With a zero budget and no run in progress, the loop stops on the very
first pop: nothing is classified and the stack is returned unchanged. -/
theorem findWorkAux_none_zero [DecidableEq K] (fKey : T → K) (fRem : T → Nat)
    (s : List T) :
    findWorkAux fKey fRem none 0 s = ([], [], [], s) := by
  cases s with
  | nil => rfl
  | cons x rest =>
    rw [findWorkAux, if_pos ⟨rfl, last_key_matches_none fKey x⟩]

/-- A stack all of whose items carry grouping key `k` and zero bytes
remaining is drained entirely into `duplicates` once the run key is `k`,
whatever the remaining budget. -/
theorem findWorkAux_drain [DecidableEq K] (fKey : T → K) (fRem : T → Nat) :
    ∀ (s : List T) (k : K), (∀ x ∈ s, fKey x = k ∧ fRem x = 0) →
      ∀ remaining, findWorkAux fKey fRem (some k) remaining s = ([], s, [], []) := by
  intro s
  induction s with
  | nil => intro k _ remaining; rfl
  | cons x rest ih =>
    intro k hall remaining
    obtain ⟨hkx, hrx⟩ := hall x (List.mem_cons_self x rest)
    have hlm : last_key_matches fKey (some k) x = true :=
      (last_key_matches_iff fKey _ x).mpr (by rw [hkx])
    rw [findWorkAux]
    rw [if_neg (by simp [hlm])]
    rw [if_pos (by simp [hlm])]
    rw [if_pos hrx, hkx]
    rw [ih k (fun y hy => hall y (List.mem_cons_of_mem x hy)) remaining]

/-- The leftover stack of one batching pass is a suffix of the input stack. -/
theorem findWorkAux_suffix [DecidableEq K] (fKey : T → K) (fRem : T → Nat) :
    ∀ (s : List T) (lastKey : Option K) (remaining : Nat),
      (findWorkAux fKey fRem lastKey remaining s).2.2.2 <:+ s := by
  intro s
  induction s with
  | nil => intro lastKey remaining; simp [findWorkAux]
  | cons x rest ih =>
    intro lastKey remaining
    rw [findWorkAux]
    split
    · exact List.suffix_refl _
    · split
      · split
        · rcases hrec : findWorkAux fKey fRem (some (fKey x)) remaining rest with
            ⟨w, d, u, lo⟩
          have h := ih (some (fKey x)) remaining
          rw [hrec] at h
          exact List.IsSuffix.trans h (List.suffix_cons x rest)
        · rcases hrec : findWorkAux fKey fRem (some (fKey x))
              (saturating_sub remaining 1) rest with ⟨w, d, u, lo⟩
          have h := ih (some (fKey x)) (saturating_sub remaining 1)
          rw [hrec] at h
          exact List.IsSuffix.trans h (List.suffix_cons x rest)
      · rcases hrec : findWorkAux fKey fRem lastKey remaining rest with ⟨w, d, u, lo⟩
        have h := ih lastKey remaining
        rw [hrec] at h
        exact List.IsSuffix.trans h (List.suffix_cons x rest)

/-- One batching pass neither loses nor duplicates items: the three output
groups together with the leftover stack are a permutation of the input
stack. -/
theorem findWorkAux_perm [DecidableEq K] (fKey : T → K) (fRem : T → Nat) :
    ∀ (s : List T) (lastKey : Option K) (remaining : Nat) (w d u lo : List T),
      findWorkAux fKey fRem lastKey remaining s = (w, d, u, lo) →
      (w ++ (d ++ (u ++ lo))).Perm s := by
  intro s
  induction s with
  | nil =>
    intro lastKey remaining w d u lo h
    rw [findWorkAux] at h
    simp only [Prod.mk.injEq] at h
    obtain ⟨rfl, rfl, rfl, rfl⟩ := h
    simp
  | cons x rest ih =>
    intro lastKey remaining w d u lo h
    rw [findWorkAux] at h
    split at h
    · simp only [Prod.mk.injEq] at h
      obtain ⟨rfl, rfl, rfl, rfl⟩ := h
      simp
    · split at h
      · split at h
        · rcases hrec : findWorkAux fKey fRem (some (fKey x)) remaining rest with
            ⟨w', d', u', lo'⟩
          rw [hrec] at h
          simp only [Prod.mk.injEq] at h
          obtain ⟨rfl, rfl, rfl, rfl⟩ := h
          simp only [List.cons_append]
          exact (@List.perm_middle _ x w' (d' ++ (u' ++ lo'))).trans
            ((ih _ _ _ _ _ _ hrec).cons x)
        · rcases hrec : findWorkAux fKey fRem (some (fKey x))
              (saturating_sub remaining 1) rest with ⟨w', d', u', lo'⟩
          rw [hrec] at h
          simp only [Prod.mk.injEq] at h
          obtain ⟨rfl, rfl, rfl, rfl⟩ := h
          simp only [List.cons_append]
          exact (ih _ _ _ _ _ _ hrec).cons x
      · rcases hrec : findWorkAux fKey fRem lastKey remaining rest with
          ⟨w', d', u', lo'⟩
        rw [hrec] at h
        simp only [Prod.mk.injEq] at h
        obtain ⟨rfl, rfl, rfl, rfl⟩ := h
        simp only [List.cons_append]
        exact ((List.Perm.append_left w' (@List.perm_middle _ x d' (u' ++ lo'))).trans
          (@List.perm_middle _ x w' (d' ++ (u' ++ lo')))).trans
          ((ih _ _ _ _ _ _ hrec).cons x)

/-- Once the budget is exhausted (`remaining = 0`), the pass classifies no
uniques and every item it still classifies — into `work` or `duplicates` —
continues the run whose key is the incoming `lastKey`. -/
theorem findWorkAux_exhausted [DecidableEq K] (fKey : T → K) (fRem : T → Nat) :
    ∀ (s : List T) (lastKey : Option K) (w d u lo : List T),
      findWorkAux fKey fRem lastKey 0 s = (w, d, u, lo) →
      u = [] ∧ (∀ x ∈ w, lastKey = some (fKey x)) ∧
        (∀ x ∈ d, lastKey = some (fKey x)) := by
  intro s
  induction s with
  | nil =>
    intro lastKey w d u lo h
    rw [findWorkAux] at h
    simp only [Prod.mk.injEq] at h
    obtain ⟨rfl, rfl, rfl, rfl⟩ := h
    simp
  | cons x rest ih =>
    intro lastKey w d u lo h
    rw [findWorkAux] at h
    split at h
    · simp only [Prod.mk.injEq] at h
      obtain ⟨rfl, rfl, rfl, rfl⟩ := h
      simp
    · rename_i hnostop
      have hlm : last_key_matches fKey lastKey x = true := by
        rcases Bool.eq_false_or_eq_true (last_key_matches fKey lastKey x) with ht | hf
        · exact ht
        · exact absurd ⟨rfl, hf⟩ hnostop
      have hlk : lastKey = some (fKey x) := (last_key_matches_iff fKey lastKey x).mp hlm
      split at h
      · split at h
        · rcases hrec : findWorkAux fKey fRem (some (fKey x)) 0 rest with
            ⟨w', d', u', lo'⟩
          rw [hrec] at h
          simp only [Prod.mk.injEq] at h
          obtain ⟨rfl, rfl, rfl, rfl⟩ := h
          obtain ⟨hu, hw, hd⟩ := ih (some (fKey x)) _ _ _ _ hrec
          refine ⟨hu, ?_, ?_⟩
          · intro y hy
            rw [hlk, hw y hy]
          · intro y hy
            rcases List.mem_cons.mp hy with rfl | hy'
            · exact hlk
            · rw [hlk, hd y hy']
        · have hz : saturating_sub 0 1 = 0 := rfl
          rw [hz] at h
          rcases hrec : findWorkAux fKey fRem (some (fKey x)) 0 rest with
            ⟨w', d', u', lo'⟩
          rw [hrec] at h
          simp only [Prod.mk.injEq] at h
          obtain ⟨rfl, rfl, rfl, rfl⟩ := h
          obtain ⟨hu, hw, hd⟩ := ih (some (fKey x)) _ _ _ _ hrec
          refine ⟨hu, ?_, ?_⟩
          · intro y hy
            rcases List.mem_cons.mp hy with rfl | hy'
            · exact hlk
            · rw [hlk, hw y hy']
          · intro y hy
            rw [hlk, hd y hy]
      · rename_i hneither
        exact absurd (by rw [hlm]; rfl) hneither

/-- Budget bound for one pass, on the raw loop: either at most `remaining`
items end up in `work`, or every `work` item from position `remaining - 1`
on shares a single grouping key (the run in progress when the budget ran
out). -/
theorem findWorkAux_budget [DecidableEq K] (fKey : T → K) (fRem : T → Nat) :
    ∀ (s : List T) (lastKey : Option K) (remaining : Nat) (w d u lo : List T),
      1 ≤ remaining →
      findWorkAux fKey fRem lastKey remaining s = (w, d, u, lo) →
      w.length ≤ remaining ∨
        ∃ k, ∀ x ∈ w.drop (remaining - 1), fKey x = k := by
  intro s
  induction s with
  | nil =>
    intro lastKey remaining w d u lo _ h
    rw [findWorkAux] at h
    simp only [Prod.mk.injEq] at h
    obtain ⟨rfl, rfl, rfl, rfl⟩ := h
    left
    simp
  | cons x rest ih =>
    intro lastKey remaining w d u lo hrem h
    rw [findWorkAux] at h
    split at h
    · simp only [Prod.mk.injEq] at h
      obtain ⟨rfl, rfl, rfl, rfl⟩ := h
      left
      simp
    · split at h
      · split at h
        · -- duplicate branch: `work` unchanged, budget unchanged
          rcases hrec : findWorkAux fKey fRem (some (fKey x)) remaining rest with
            ⟨w', d', u', lo'⟩
          rw [hrec] at h
          simp only [Prod.mk.injEq] at h
          obtain ⟨rfl, rfl, rfl, rfl⟩ := h
          exact ih (some (fKey x)) remaining _ _ _ _ hrem hrec
        · -- work branch: one budget unit consumed
          rw [saturating_sub_eq] at h
          rcases hrec : findWorkAux fKey fRem (some (fKey x)) (remaining - 1) rest with
            ⟨w', d', u', lo'⟩
          rw [hrec] at h
          simp only [Prod.mk.injEq] at h
          obtain ⟨rfl, rfl, rfl, rfl⟩ := h
          by_cases hone : remaining = 1
          · subst hone
            obtain ⟨_, hw, _⟩ := findWorkAux_exhausted fKey fRem rest
              (some (fKey x)) _ _ _ _ hrec
            right
            refine ⟨fKey x, ?_⟩
            intro y hy
            simp only [Nat.sub_self, List.drop_zero] at hy
            rcases List.mem_cons.mp hy with rfl | hy'
            · rfl
            · exact (Option.some.injEq _ _).mp (hw y hy').symm
          · have hrem2 : 2 ≤ remaining := by omega
            rcases ih (some (fKey x)) (remaining - 1) _ _ _ _ (by omega) hrec with
              hlen | ⟨k, hk⟩
            · left
              simp only [List.length_cons]
              omega
            · right
              refine ⟨k, ?_⟩
              intro y hy
              have hsplit : remaining - 1 = (remaining - 2) + 1 := by omega
              rw [hsplit, List.drop_succ_cons] at hy
              have hsplit2 : (remaining - 1) - 1 = remaining - 2 := by omega
              rw [hsplit2] at hk
              exact hk y hy
      · -- unique branch: `work`, budget and run key unchanged
        rcases hrec : findWorkAux fKey fRem lastKey remaining rest with
          ⟨w', d', u', lo'⟩
        rw [hrec] at h
        simp only [Prod.mk.injEq] at h
        obtain ⟨rfl, rfl, rfl, rfl⟩ := h
        exact ih lastKey remaining _ _ _ _ hrem hrec

/-! ## Claim theorems -/

/-- Claim C1: for every pool sorted ascending by grouping key and every
budget, one `find_work` call partitions the consumed portion of the pool
exactly: the mutably shrunk pool is a prefix of the original ascending
order, and `work`, `duplicates`, `uniques` and the shrunk pool together are
a permutation of the original pool — every item either remains in the pool
or appears in exactly one output group, none lost, none duplicated. -/
theorem find_work_partitions_pool [DecidableEq K] [LinearOrder K]
    (fKey : T → K) (fRem : T → Nat) (pool : List T) (budget : Nat)
    (hs : List.Sorted (fun a b => fKey a ≤ fKey b) pool) :
    (find_work fKey fRem pool budget).2 <+: pool ∧
    ((find_work fKey fRem pool budget).1.work ++
      ((find_work fKey fRem pool budget).1.duplicates ++
        ((find_work fKey fRem pool budget).1.uniques ++
          (find_work fKey fRem pool budget).2))).Perm pool := by
  rcases hr : findWorkAux fKey fRem none budget pool.reverse with ⟨w, d, u, lo⟩
  have hfw : find_work fKey fRem pool budget = (⟨w, d, u⟩, lo.reverse) := by
    simp [find_work, hr]
  rw [hfw]
  constructor
  · have hsuf := findWorkAux_suffix fKey fRem pool.reverse none budget
    rw [hr] at hsuf
    have hsuf' : lo <:+ pool.reverse := hsuf
    simpa using hsuf'.reverse
  · have hp := findWorkAux_perm fKey fRem pool.reverse none budget w d u lo hr
    have h2 : (w ++ (d ++ (u ++ lo.reverse))).Perm (w ++ (d ++ (u ++ lo))) :=
      List.Perm.append_left w (List.Perm.append_left d
        (List.Perm.append_left u (List.reverse_perm lo)))
    exact h2.trans (hp.trans (List.reverse_perm pool))

/-- Witness for C1 at a concrete sorted pool with budget 1. -/
theorem find_work_partitions_pool_witness :
    List.Sorted (fun a b => TestWork.id a ≤ TestWork.id b)
      [w_10 1, w_10 2, w_10 2, w_10 3] ∧
    ((find_work TestWork.id TestWork.bytes_remaining
        [w_10 1, w_10 2, w_10 2, w_10 3] 1).2 <+: [w_10 1, w_10 2, w_10 2, w_10 3] ∧
      ((find_work TestWork.id TestWork.bytes_remaining
          [w_10 1, w_10 2, w_10 2, w_10 3] 1).1.work ++
        ((find_work TestWork.id TestWork.bytes_remaining
            [w_10 1, w_10 2, w_10 2, w_10 3] 1).1.duplicates ++
          ((find_work TestWork.id TestWork.bytes_remaining
              [w_10 1, w_10 2, w_10 2, w_10 3] 1).1.uniques ++
            (find_work TestWork.id TestWork.bytes_remaining
              [w_10 1, w_10 2, w_10 2, w_10 3] 1).2))).Perm
        [w_10 1, w_10 2, w_10 2, w_10 3]) :=
  ⟨by decide,
    find_work_partitions_pool TestWork.id TestWork.bytes_remaining
      [w_10 1, w_10 2, w_10 2, w_10 3] 1 (by decide)⟩

/-- Claim C2 counterexample: with budget 0 and no run in progress, the pool
`[⟨key 1, 0 remaining⟩, ⟨key 1, 0 remaining⟩]` — a matched run of two
zero-remaining items — is not drained at all: `duplicates` comes back empty
and the pool is returned unchanged, refuting the claim that a zero-remaining
matched run is fully drained into duplicates regardless of budget (and in
particular at budget 0). -/
theorem find_work_budget_zero_cex :
    (find_work_tw [w_0 1, w_0 1] 0).1.duplicates = [] ∧
    (find_work_tw [w_0 1, w_0 1] 0).2 = [w_0 1, w_0 1] := by decide

/-- Claim C2 (amended): with budget 0 and no run in progress the pass
classifies nothing — all three groups are empty and the pool is unchanged.
A run of ≥ 2 adjacent equal-key zero-remaining items is drained entirely
into `duplicates` without consuming budget whenever the pass reaches it; in
particular, for any budget ≥ 1, a pool consisting exactly of such a run is
fully drained into `duplicates` (in pop order) with `work` and `uniques`
empty and the pool emptied. -/
theorem find_work_zero_budget_and_drain [DecidableEq K]
    (fKey : T → K) (fRem : T → Nat) :
    (∀ pool : List T, find_work fKey fRem pool 0 = (⟨[], [], []⟩, pool)) ∧
    (∀ (run : List T) (k : K), 2 ≤ run.length →
      (∀ x ∈ run, fKey x = k ∧ fRem x = 0) →
      ∀ budget, 1 ≤ budget →
        find_work fKey fRem run budget = (⟨[], run.reverse, []⟩, [])) := by
  constructor
  · intro pool
    simp [find_work, findWorkAux_none_zero]
  · intro run k hlen hall budget hb
    have hmem : ∀ x ∈ run.reverse, fKey x = k ∧ fRem x = 0 := by
      intro x hx
      exact hall x (List.mem_reverse.mp hx)
    obtain ⟨y1, y2, s', hsplit⟩ : ∃ y1 y2 s', run.reverse = y1 :: y2 :: s' := by
      rcases hcase : run.reverse with _ | ⟨a, tl⟩
      · exfalso
        have : run.length = 0 := by simpa using congrArg List.length hcase
        omega
      · rcases htl : tl with _ | ⟨b, t⟩
        · exfalso
          have : run.length = 1 := by
            have := congrArg List.length hcase
            simp [htl] at this
            simpa using this
          omega
        · exact ⟨a, b, t, rfl⟩
    rw [hsplit] at hmem
    have hk1 := hmem y1 (by simp)
    have hk2 := hmem y2 (by simp)
    have haux : findWorkAux fKey fRem none budget (y1 :: y2 :: s') =
        ([], y1 :: y2 :: s', [], []) := by
      rw [findWorkAux]
      rw [if_neg (fun hc => by omega)]
      rw [if_pos (by
        simp [next_matches, hk1.1, hk2.1])]
      rw [if_pos hk1.2]
      rw [hk1.1]
      rw [findWorkAux_drain fKey fRem (y2 :: s') k
        (fun y hy => hmem y (List.mem_cons_of_mem y1 hy)) budget]
    simp [find_work, hsplit, haux]

/-- Witness for the amended C2: budget 0 leaves a nonempty pool untouched,
and a two-item zero-remaining run is fully drained at budget 1. -/
theorem find_work_zero_budget_and_drain_witness :
    find_work TestWork.id TestWork.bytes_remaining [w_10 1, w_10 2] 0 =
      (⟨[], [], []⟩, [w_10 1, w_10 2]) ∧
    find_work TestWork.id TestWork.bytes_remaining [w_0 7, w_0 7] 1 =
      (⟨[], (([w_0 7, w_0 7] : List TestWork)).reverse, []⟩, []) :=
  ⟨(find_work_zero_budget_and_drain TestWork.id TestWork.bytes_remaining).1
      [w_10 1, w_10 2],
    (find_work_zero_budget_and_drain TestWork.id TestWork.bytes_remaining).2
      [w_0 7, w_0 7] 7 (by decide) (by decide) 1 (by decide)⟩

/-- Claim C3: for every sorted pool and budget, the number of items moved
into `work` never exceeds the budget, except for items finishing the single
equal-key run in progress when the budget reached zero: whenever `work`
overflows the budget, the budget is positive and every `work` item from
position `budget - 1` on (the run in progress at exhaustion, including all
excess items) carries one and the same grouping key.  Once exhausted, no new
group is started. -/
theorem find_work_budget_bound [DecidableEq K] [LinearOrder K]
    (fKey : T → K) (fRem : T → Nat) (pool : List T) (budget : Nat)
    (hs : List.Sorted (fun a b => fKey a ≤ fKey b) pool) :
    (find_work fKey fRem pool budget).1.work.length ≤ budget ∨
    (0 < budget ∧ ∃ k, ∀ x ∈ (find_work fKey fRem pool budget).1.work.drop
      (budget - 1), fKey x = k) := by
  rcases hr : findWorkAux fKey fRem none budget pool.reverse with ⟨w, d, u, lo⟩
  have hfw : find_work fKey fRem pool budget = (⟨w, d, u⟩, lo.reverse) := by
    simp [find_work, hr]
  rw [hfw]
  cases budget with
  | zero =>
    rw [findWorkAux_none_zero] at hr
    simp only [Prod.mk.injEq] at hr
    obtain ⟨rfl, rfl, rfl, rfl⟩ := hr
    left
    simp
  | succ n =>
    rcases findWorkAux_budget fKey fRem pool.reverse none (n + 1) w d u lo
        (by omega) hr with hl | ⟨k, hk⟩
    · left
      exact hl
    · right
      exact ⟨by omega, k, hk⟩

/-- Witness for C3 at the spec's end-to-end scenario (budget 2, run of three
equal keys in the middle). -/
theorem find_work_budget_bound_witness :
    List.Sorted (fun a b => TestWork.id a ≤ TestWork.id b)
      [w_10 1, w_10 2, w_10 3, w_10 3, w_10 3, w_10 4, w_10 5] ∧
    ((find_work TestWork.id TestWork.bytes_remaining
        [w_10 1, w_10 2, w_10 3, w_10 3, w_10 3, w_10 4, w_10 5] 2).1.work.length ≤ 2 ∨
      (0 < 2 ∧ ∃ k, ∀ x ∈ (find_work TestWork.id TestWork.bytes_remaining
          [w_10 1, w_10 2, w_10 3, w_10 3, w_10 3, w_10 4, w_10 5] 2).1.work.drop
        (2 - 1), TestWork.id x = k)) :=
  ⟨by decide,
    find_work_budget_bound TestWork.id TestWork.bytes_remaining
      [w_10 1, w_10 2, w_10 3, w_10 3, w_10 3, w_10 4, w_10 5] 2 (by decide)⟩

/-- Claim C4: concrete end-to-end scenario — sorted pool with keys
`[1,2,3,3,3,4,5]`, all items unread (nonzero bytes remaining), budget 2:
`work = [3,3,3]` in pop order, `uniques = [5,4]`, `duplicates = []`, and
exactly `[1,2]` is left in the pool. -/
theorem find_work_middle_run_scenario :
    find_work_tw [w_10 1, w_10 2, w_10 3, w_10 3, w_10 3, w_10 4, w_10 5] 2 =
      (⟨[w_10 3, w_10 3, w_10 3], [], [w_10 5, w_10 4]⟩, [w_10 1, w_10 2]) := by
  decide

/-- Claim C5: an item whose grouping key matches neither the most recently
classified item's key (`last_key`) nor the key of the next item still in the
pool is, when the pass classifies it at all (budget not yet exhausted),
appended to `uniques`, and the pass continues with `last_key` unchanged — a
unique item neither starts nor continues a run. -/
theorem find_work_unique_step [DecidableEq K]
    (fKey : T → K) (fRem : T → Nat) (lastKey : Option K) (remaining : Nat)
    (x : T) (rest : List T)
    (hrem : remaining ≠ 0)
    (hlast : last_key_matches fKey lastKey x = false)
    (hnext : next_matches fKey rest x = false) :
    findWorkAux fKey fRem lastKey remaining (x :: rest) =
      ((findWorkAux fKey fRem lastKey remaining rest).1,
        (findWorkAux fKey fRem lastKey remaining rest).2.1,
        x :: (findWorkAux fKey fRem lastKey remaining rest).2.2.1,
        (findWorkAux fKey fRem lastKey remaining rest).2.2.2) := by
  rw [findWorkAux]
  rw [if_neg (fun hc => hrem hc.1)]
  rw [if_neg (by simp [hlast, hnext])]

/-- Witness for C5: key 2 matches neither the run key 5 nor the next key 3. -/
theorem find_work_unique_step_witness :
    ((2 : Nat) ≠ 0 ∧
      last_key_matches TestWork.id (some 5) (w_10 2) = false ∧
      next_matches TestWork.id [w_10 3, w_10 3] (w_10 2) = false) ∧
    findWorkAux TestWork.id TestWork.bytes_remaining (some 5) 2
        (w_10 2 :: [w_10 3, w_10 3]) =
      ((findWorkAux TestWork.id TestWork.bytes_remaining (some 5) 2
          [w_10 3, w_10 3]).1,
        (findWorkAux TestWork.id TestWork.bytes_remaining (some 5) 2
          [w_10 3, w_10 3]).2.1,
        w_10 2 :: (findWorkAux TestWork.id TestWork.bytes_remaining (some 5) 2
          [w_10 3, w_10 3]).2.2.1,
        (findWorkAux TestWork.id TestWork.bytes_remaining (some 5) 2
          [w_10 3, w_10 3]).2.2.2) :=
  ⟨⟨by decide, by decide, by decide⟩,
    find_work_unique_step TestWork.id TestWork.bytes_remaining (some 5) 2
      (w_10 2) [w_10 3, w_10 3] (by decide) (by decide) (by decide)⟩

/-- Claim C6: for every budget, `find_work` on an empty pool returns a batch
with empty `work`, `duplicates` and `uniques`, and leaves the pool empty
(no mutation). -/
theorem find_work_empty_pool [DecidableEq K]
    (fKey : T → K) (fRem : T → Nat) (budget : Nat) :
    find_work fKey fRem ([] : List T) budget = (⟨[], [], []⟩, []) := by
  simp [find_work, findWorkAux]

/-! ## Digest, read executor and statistics lemmas -/

/-- The accumulator after a sequence of updates holds everything fed so far:
the starting contents followed by the concatenation of the chunks. -/
theorem apply_updates_fed (fp : List Nat → List Nat) :
    ∀ (chunks : List (List Nat)) (pd : PossDupe),
      (apply_updates fp pd chunks).digest.fed = pd.digest.fed ++ chunks.flatten := by
  intro chunks
  induction chunks with
  | nil => intro pd; simp [apply_updates]
  | cons c cs ih =>
    intro pd
    have hstep : apply_updates fp pd (c :: cs) =
        apply_updates fp (pd.update_digest fp c) cs := rfl
    rw [hstep, ih]
    simp [PossDupe.update_digest, Sha256.update, List.append_assoc]

/-- After at least one update, the snapshot is the fingerprint of everything
fed so far. -/
theorem apply_updates_snapshot (fp : List Nat → List Nat) :
    ∀ (chunks : List (List Nat)) (pd : PossDupe), chunks ≠ [] →
      (apply_updates fp pd chunks).key.digest_snapshot =
        fp (pd.digest.fed ++ chunks.flatten) := by
  intro chunks
  induction chunks with
  | nil => intro pd h; exact absurd rfl h
  | cons c cs ih =>
    intro pd _
    have hstep : apply_updates fp pd (c :: cs) =
        apply_updates fp (pd.update_digest fp c) cs := rfl
    rcases Decidable.em (cs = []) with hcs | hcs
    · subst hcs
      simp [hstep, apply_updates, PossDupe.update_digest, Sha256.update,
        Sha256.finalize_clone]
    · rw [hstep, ih (pd.update_digest fp c) hcs]
      simp [PossDupe.update_digest, Sha256.update, List.append_assoc]

/-- Claim C7: for every candidate and every sequence of `update_digest`
calls, the digest snapshot equals the (abstract SHA-256) fingerprint `fp` of
the concatenation of all chunks fed so far — not just the last chunk — and
the accumulator itself still holds exactly those bytes, so further updates
keep working (the snapshot is non-destructive); a fresh candidate's snapshot
is the all-zero 32-byte constant, and whenever `fp` is 32 bytes wide the
snapshot stays 32 bytes wide. -/
theorem update_digest_snapshot_spec (fp : List Nat → List Nat) (path : String)
    (len : Nat) (chunks : List (List Nat)) :
    (PossDupe.new path len).key.digest_snapshot = List.replicate 32 0 ∧
    (apply_updates fp (PossDupe.new path len) chunks).digest.fed = chunks.flatten ∧
    (chunks ≠ [] →
      (apply_updates fp (PossDupe.new path len) chunks).key.digest_snapshot =
        fp chunks.flatten) ∧
    ((∀ bs, (fp bs).length = 32) →
      (apply_updates fp (PossDupe.new path len) chunks).key.digest_snapshot.length
        = 32) := by
  refine ⟨rfl, ?_, ?_, ?_⟩
  · simpa [PossDupe.new, Sha256.new] using apply_updates_fed fp chunks (PossDupe.new path len)
  · intro hne
    simpa [PossDupe.new, Sha256.new] using
      apply_updates_snapshot fp chunks (PossDupe.new path len) hne
  · intro hlen
    rcases chunks with _ | ⟨c, cs⟩
    · simp [apply_updates, PossDupe.new, Key.new]
    · rw [apply_updates_snapshot fp (c :: cs) (PossDupe.new path len) (by simp)]
      exact hlen _

/-- Witness for C7: two chunks fed through a concrete 32-byte-wide
fingerprint function. -/
theorem update_digest_snapshot_spec_witness :
    (apply_updates (fun bs => List.replicate 32 bs.length) (PossDupe.new "a" 5)
        [[1], [2, 3]]).key.digest_snapshot = List.replicate 32 3 ∧
    (apply_updates (fun bs => List.replicate 32 bs.length) (PossDupe.new "a" 5)
        [[1], [2, 3]]).key.digest_snapshot.length = 32 := by
  constructor
  · have h := (update_digest_snapshot_spec (fun bs => List.replicate 32 bs.length)
      "a" 5 [[1], [2, 3]]).2.2.1 (by simp)
    rw [h]
    decide
  · exact (update_digest_snapshot_spec (fun bs => List.replicate 32 bs.length)
      "a" 5 [[1], [2, 3]]).2.2.2 (fun bs => by simp)

/-- Claim C8: one invocation of the read executor on a consistent candidate
(`bytes_read ≤ size`) requests exactly `min(read_size, bytes_remaining)`
bytes and advances `bytes_read` by exactly that amount; `bytes_read` never
exceeds the declared size, and afterwards `bytes_remaining = 0` holds
exactly when the whole file has been consumed. -/
theorem read_poss_dupe_spec (fp : List Nat → List Nat) (content : List Nat)
    (pd : PossDupe) (read_size : Nat) (h : pd.bytes_read ≤ pd.key.len) :
    (read_poss_dupe fp content pd read_size).bytes_read =
      pd.bytes_read + min read_size pd.bytes_remaining ∧
    (read_poss_dupe fp content pd read_size).key.len = pd.key.len ∧
    (read_poss_dupe fp content pd read_size).bytes_read ≤ pd.key.len ∧
    ((read_poss_dupe fp content pd read_size).bytes_remaining = 0 ↔
      (read_poss_dupe fp content pd read_size).bytes_read = pd.key.len) := by
  have h1 : (read_poss_dupe fp content pd read_size).bytes_read =
      pd.bytes_read + min read_size pd.bytes_remaining := by
    simp [read_poss_dupe, PossDupe.update_digest]
  have h2 : (read_poss_dupe fp content pd read_size).key.len = pd.key.len := by
    simp [read_poss_dupe, PossDupe.update_digest]
  refine ⟨h1, h2, ?_, ?_⟩
  · rw [h1]
    simp only [PossDupe.bytes_remaining, saturating_sub_eq]
    omega
  · simp only [PossDupe.bytes_remaining, saturating_sub_eq, h1, h2]
    omega

/-- Witness for C8: a candidate of size 10 with 7 bytes already read, chunk
size 4. -/
theorem read_poss_dupe_spec_witness :
    (⟨"f", ⟨10, List.replicate 32 0⟩, 10, 7, ⟨[]⟩⟩ : PossDupe).bytes_read ≤
      (⟨"f", ⟨10, List.replicate 32 0⟩, 10, 7, ⟨[]⟩⟩ : PossDupe).key.len ∧
    ((read_poss_dupe (fun bs => bs) [0, 1, 2, 3, 4, 5, 6, 7, 8, 9]
        (⟨"f", ⟨10, List.replicate 32 0⟩, 10, 7, ⟨[]⟩⟩ : PossDupe) 4).bytes_read =
      7 + min 4 (⟨"f", ⟨10, List.replicate 32 0⟩, 10, 7, ⟨[]⟩⟩ : PossDupe).bytes_remaining ∧
    (read_poss_dupe (fun bs => bs) [0, 1, 2, 3, 4, 5, 6, 7, 8, 9]
        (⟨"f", ⟨10, List.replicate 32 0⟩, 10, 7, ⟨[]⟩⟩ : PossDupe) 4).key.len = 10 ∧
    (read_poss_dupe (fun bs => bs) [0, 1, 2, 3, 4, 5, 6, 7, 8, 9]
        (⟨"f", ⟨10, List.replicate 32 0⟩, 10, 7, ⟨[]⟩⟩ : PossDupe) 4).bytes_read ≤ 10 ∧
    ((read_poss_dupe (fun bs => bs) [0, 1, 2, 3, 4, 5, 6, 7, 8, 9]
        (⟨"f", ⟨10, List.replicate 32 0⟩, 10, 7, ⟨[]⟩⟩ : PossDupe) 4).bytes_remaining = 0 ↔
      (read_poss_dupe (fun bs => bs) [0, 1, 2, 3, 4, 5, 6, 7, 8, 9]
        (⟨"f", ⟨10, List.replicate 32 0⟩, 10, 7, ⟨[]⟩⟩ : PossDupe) 4).bytes_read = 10)) :=
  ⟨by decide,
    read_poss_dupe_spec (fun bs => bs) [0, 1, 2, 3, 4, 5, 6, 7, 8, 9]
      (⟨"f", ⟨10, List.replicate 32 0⟩, 10, 7, ⟨[]⟩⟩ : PossDupe) 4 (by decide)⟩

/-- Claim C9: `bytes_remaining` is a total pure function equal to size minus
`bytes_read` saturating at zero, on every candidate state including
inconsistent ones where `bytes_read` exceeds the declared size: it never
goes below zero (`Nat`-truncated subtraction) and, being total, never
panics. -/
theorem bytes_remaining_total (pd : PossDupe) :
    pd.bytes_remaining = pd.key.len - pd.bytes_read ∧
    pd.bytes_remaining + pd.bytes_read = max pd.key.len pd.bytes_read := by
  refine ⟨?_, ?_⟩ <;> simp only [PossDupe.bytes_remaining, saturating_sub_eq]
  · rw [Nat.max_def]
    split <;> omega

/-- What one `Stats::track` call does to each field: byte totals accumulate,
the unique/duplicate counters are untouched, and exactly one of the three
read-progress counters is bumped. -/
theorem track_step (s : Stats) (pd : PossDupe) :
    (s.track pd).total_bytes_considered = s.total_bytes_considered + pd.file_len ∧
    (s.track pd).total_bytes_read = s.total_bytes_read + pd.bytes_read ∧
    (s.track pd).total_bytes_skipped = s.total_bytes_skipped + pd.bytes_remaining ∧
    (s.track pd).num_unique_files = s.num_unique_files ∧
    (s.track pd).num_duplicate_files = s.num_duplicate_files ∧
    (s.track pd).num_files_fully_read + (s.track pd).num_files_partly_read +
        (s.track pd).num_files_not_read =
      s.num_files_fully_read + s.num_files_partly_read + s.num_files_not_read + 1 := by
  simp only [Stats.track]
  split
  · split <;> simp <;> omega
  · simp
    omega

/-- One `Stats::unique` call preserves the two bookkeeping equations of C10
when the candidate is well-formed. -/
theorem unique_inv_step (s : Stats) (pd : PossDupe)
    (hbr : pd.bytes_read ≤ pd.file_len) (hkl : pd.key.len = pd.file_len)
    (h1 : s.total_bytes_considered = s.total_bytes_read + s.total_bytes_skipped)
    (h2 : s.num_files_fully_read + s.num_files_partly_read + s.num_files_not_read
      = s.num_unique_files + s.num_duplicate_files) :
    (s.unique pd).total_bytes_considered =
      (s.unique pd).total_bytes_read + (s.unique pd).total_bytes_skipped ∧
    (s.unique pd).num_files_fully_read + (s.unique pd).num_files_partly_read +
        (s.unique pd).num_files_not_read =
      (s.unique pd).num_unique_files + (s.unique pd).num_duplicate_files := by
  unfold Stats.unique
  obtain ⟨t1, t2, t3, t4, t5, t6⟩ :=
    track_step { s with num_unique_files := s.num_unique_files + 1 } pd
  constructor
  · rw [t1, t2, t3]
    simp only [PossDupe.bytes_remaining, saturating_sub_eq]
    omega
  · rw [t6, t4, t5]
    dsimp only
    omega

/-- One `Stats::duplicate` call preserves the two bookkeeping equations of
C10 when the candidate is well-formed. -/
theorem duplicate_inv_step (s : Stats) (pd : PossDupe)
    (hbr : pd.bytes_read ≤ pd.file_len) (hkl : pd.key.len = pd.file_len)
    (h1 : s.total_bytes_considered = s.total_bytes_read + s.total_bytes_skipped)
    (h2 : s.num_files_fully_read + s.num_files_partly_read + s.num_files_not_read
      = s.num_unique_files + s.num_duplicate_files) :
    (s.duplicate pd).total_bytes_considered =
      (s.duplicate pd).total_bytes_read + (s.duplicate pd).total_bytes_skipped ∧
    (s.duplicate pd).num_files_fully_read + (s.duplicate pd).num_files_partly_read +
        (s.duplicate pd).num_files_not_read =
      (s.duplicate pd).num_unique_files + (s.duplicate pd).num_duplicate_files := by
  unfold Stats.duplicate
  obtain ⟨t1, t2, t3, t4, t5, t6⟩ :=
    track_step { s with num_duplicate_files := s.num_duplicate_files + 1 } pd
  constructor
  · rw [t1, t2, t3]
    simp only [PossDupe.bytes_remaining, saturating_sub_eq]
    omega
  · rw [t6, t4, t5]
    dsimp only
    omega

/-- The two bookkeeping equations of C10 are preserved by any sequence of
`unique`/`duplicate` events on well-formed candidates. -/
theorem apply_events_inv :
    ∀ (evs : List (Bool × PossDupe)) (s : Stats),
      (∀ e ∈ evs, e.2.bytes_read ≤ e.2.file_len ∧ e.2.key.len = e.2.file_len) →
      s.total_bytes_considered = s.total_bytes_read + s.total_bytes_skipped →
      s.num_files_fully_read + s.num_files_partly_read + s.num_files_not_read =
        s.num_unique_files + s.num_duplicate_files →
      (apply_events s evs).total_bytes_considered =
        (apply_events s evs).total_bytes_read +
          (apply_events s evs).total_bytes_skipped ∧
      (apply_events s evs).num_files_fully_read +
          (apply_events s evs).num_files_partly_read +
          (apply_events s evs).num_files_not_read =
        (apply_events s evs).num_unique_files +
          (apply_events s evs).num_duplicate_files := by
  intro evs
  induction evs with
  | nil => intro s _ h1 h2; exact ⟨h1, h2⟩
  | cons e es ih =>
    rcases e with ⟨b, pd⟩
    intro s hall h1 h2
    have hmem := hall (b, pd) (List.mem_cons_self _ es)
    have hbr : pd.bytes_read ≤ pd.file_len := hmem.1
    have hkl : pd.key.len = pd.file_len := hmem.2
    have htail : ∀ x ∈ es, x.2.bytes_read ≤ x.2.file_len ∧
        x.2.key.len = x.2.file_len :=
      fun x hx => hall x (List.mem_cons_of_mem _ hx)
    cases b with
    | true =>
      have hstep : apply_events s ((true, pd) :: es) =
          apply_events (s.unique pd) es := rfl
      rw [hstep]
      obtain ⟨g1, g2⟩ := unique_inv_step s pd hbr hkl h1 h2
      exact ih _ htail g1 g2
    | false =>
      have hstep : apply_events s ((false, pd) :: es) =
          apply_events (s.duplicate pd) es := rfl
      rw [hstep]
      obtain ⟨g1, g2⟩ := duplicate_inv_step s pd hbr hkl h1 h2
      exact ih _ htail g1 g2

/-- Claim C10: starting from `Stats::new()`, after any sequence of
`unique()` and `duplicate()` calls on candidates each satisfying
`bytes_read ≤ size` (with `key.len = file_len` as every candidate built by
`PossDupe::new` has), the totals satisfy
`total_bytes_considered = total_bytes_read + total_bytes_skipped` and
`num_files_fully_read + num_files_partly_read + num_files_not_read =
num_unique_files + num_duplicate_files`. -/
theorem stats_invariant (evs : List (Bool × PossDupe))
    (hall : ∀ e ∈ evs, e.2.bytes_read ≤ e.2.file_len ∧
      e.2.key.len = e.2.file_len) :
    (apply_events Stats.new evs).total_bytes_considered =
      (apply_events Stats.new evs).total_bytes_read +
        (apply_events Stats.new evs).total_bytes_skipped ∧
    (apply_events Stats.new evs).num_files_fully_read +
        (apply_events Stats.new evs).num_files_partly_read +
        (apply_events Stats.new evs).num_files_not_read =
      (apply_events Stats.new evs).num_unique_files +
        (apply_events Stats.new evs).num_duplicate_files :=
  apply_events_inv evs Stats.new hall rfl rfl

/-- Witness for C10: one fully read duplicate, one untouched unique, one
partly read unique. -/
theorem stats_invariant_witness :
    (∀ e ∈ ([(true, PossDupe.new "a" 3),
        (false, ⟨"b", ⟨4, List.replicate 32 0⟩, 4, 4, ⟨[]⟩⟩),
        (true, ⟨"c", ⟨9, List.replicate 32 0⟩, 9, 2, ⟨[]⟩⟩)] :
          List (Bool × PossDupe)),
      e.2.bytes_read ≤ e.2.file_len ∧ e.2.key.len = e.2.file_len) ∧
    ((apply_events Stats.new [(true, PossDupe.new "a" 3),
        (false, ⟨"b", ⟨4, List.replicate 32 0⟩, 4, 4, ⟨[]⟩⟩),
        (true, ⟨"c", ⟨9, List.replicate 32 0⟩, 9, 2, ⟨[]⟩⟩)]).total_bytes_considered =
      (apply_events Stats.new [(true, PossDupe.new "a" 3),
        (false, ⟨"b", ⟨4, List.replicate 32 0⟩, 4, 4, ⟨[]⟩⟩),
        (true, ⟨"c", ⟨9, List.replicate 32 0⟩, 9, 2, ⟨[]⟩⟩)]).total_bytes_read +
        (apply_events Stats.new [(true, PossDupe.new "a" 3),
          (false, ⟨"b", ⟨4, List.replicate 32 0⟩, 4, 4, ⟨[]⟩⟩),
          (true, ⟨"c", ⟨9, List.replicate 32 0⟩, 9, 2, ⟨[]⟩⟩)]).total_bytes_skipped ∧
    (apply_events Stats.new [(true, PossDupe.new "a" 3),
        (false, ⟨"b", ⟨4, List.replicate 32 0⟩, 4, 4, ⟨[]⟩⟩),
        (true, ⟨"c", ⟨9, List.replicate 32 0⟩, 9, 2, ⟨[]⟩⟩)]).num_files_fully_read +
        (apply_events Stats.new [(true, PossDupe.new "a" 3),
          (false, ⟨"b", ⟨4, List.replicate 32 0⟩, 4, 4, ⟨[]⟩⟩),
          (true, ⟨"c", ⟨9, List.replicate 32 0⟩, 9, 2, ⟨[]⟩⟩)]).num_files_partly_read +
        (apply_events Stats.new [(true, PossDupe.new "a" 3),
          (false, ⟨"b", ⟨4, List.replicate 32 0⟩, 4, 4, ⟨[]⟩⟩),
          (true, ⟨"c", ⟨9, List.replicate 32 0⟩, 9, 2, ⟨[]⟩⟩)]).num_files_not_read =
      (apply_events Stats.new [(true, PossDupe.new "a" 3),
          (false, ⟨"b", ⟨4, List.replicate 32 0⟩, 4, 4, ⟨[]⟩⟩),
          (true, ⟨"c", ⟨9, List.replicate 32 0⟩, 9, 2, ⟨[]⟩⟩)]).num_unique_files +
        (apply_events Stats.new [(true, PossDupe.new "a" 3),
          (false, ⟨"b", ⟨4, List.replicate 32 0⟩, 4, 4, ⟨[]⟩⟩),
          (true, ⟨"c", ⟨9, List.replicate 32 0⟩, 9, 2, ⟨[]⟩⟩)]).num_duplicate_files) :=
  ⟨by decide,
    stats_invariant [(true, PossDupe.new "a" 3),
      (false, ⟨"b", ⟨4, List.replicate 32 0⟩, 4, 4, ⟨[]⟩⟩),
      (true, ⟨"c", ⟨9, List.replicate 32 0⟩, 9, 2, ⟨[]⟩⟩)] (by decide)⟩

end Fddup
